import Mathlib

/-!
Shallow embedding of the algorithmic core of the `cortes-automaticos`
pipeline (files `src/services/analysis.js` and
`src/services/videoProcessor.js`), together with theorems settling the
spec claims about it.

Modelling conventions:
* JavaScript strings are modelled as `List Char` (`Str`).
* JavaScript numbers are modelled as `ℚ`; where `NaN` can flow, a value
  is `Option ℚ` with `none` standing for `NaN`.
* JavaScript exceptions are modelled with `Except Unit`.
* JavaScript objects used as ordered string-keyed maps are modelled as
  association lists in insertion order.
-/

namespace Cortes

/-- Strings of the JavaScript runtime, modelled as lists of characters. -/
abbrev Str := List Char

/-- Whitespace recognised by JavaScript's `String.prototype.trim` /
`parseInt` prefix skipping (ASCII part plus NBSP and BOM). -/
def isJSWhite (c : Char) : Bool :=
  c = ' ' || c = '\t' || c = '\n' || c = '\r' ||
  c = Char.ofNat 11 || c = Char.ofNat 12 || c = Char.ofNat 0xa0 || c = Char.ofNat 0xfeff

/-- Worker for `splitSep`: JavaScript `String.prototype.split` with the
non-empty separator `s0 :: srest`, scanning left to right and cutting at
each leftmost occurrence of the separator.  `acc` holds the reversed
characters of the field currently being read. -/
def splitSepGo (s0 : Char) (srest : List Char) (acc : List Char) :
    List Char → List (List Char)
  | [] => [acc.reverse]
  | c :: cs =>
    if (s0 :: srest).isPrefixOf (c :: cs) then
      acc.reverse :: splitSepGo s0 srest [] (cs.drop srest.length)
    else
      splitSepGo s0 srest (c :: acc) cs
termination_by l => l.length
decreasing_by
  · simp only [List.length_drop, List.length_cons]; omega
  · simp only [List.length_cons]; omega

/-- JavaScript `str.split(sep)` for the non-empty separator `s0 :: srest`. -/
def splitSep (s0 : Char) (srest : List Char) (s : Str) : List Str :=
  splitSepGo s0 srest [] s

/-- JavaScript `str.replace(/\r\n/g, '\n')`: replace every occurrence of
CR-LF by LF (split on the separator, join with the replacement). -/
def replaceCRLF (s : Str) : Str :=
  List.intercalate ['\n'] (splitSep '\r' ['\n'] s)

/-- Numeric value of a list of decimal digit characters. -/
def digitsToNat (ds : Str) : ℕ :=
  ds.foldl (fun n c => 10 * n + (c.toNat - 48)) 0

/-- Digit run at the front of a string: `NaN` (`none`) if there is none,
else the parsed decimal value of the longest digit prefix, exactly as
JavaScript `parseInt` behaves after sign handling. -/
def parseIntCore (s : Str) : Option ℚ :=
  let ds := s.takeWhile Char.isDigit
  if ds = [] then none else some ((digitsToNat ds : ℚ))

/-- JavaScript `parseInt(string)` on a string argument (decimal case):
skip leading whitespace, read an optional sign, then the longest digit
prefix; `NaN` (`none`) when no digit follows. -/
def parseIntJS (s : Str) : Option ℚ :=
  match s.dropWhile isJSWhite with
  | [] => none
  | c :: r =>
    if c = '-' then (parseIntCore r).map (fun q => -q)
    else if c = '+' then parseIntCore r
    else parseIntCore (c :: r)

/-- JavaScript `parseInt(x)` where `x` may be `undefined` (as for the
missing milliseconds field): `parseInt(undefined)` is `NaN`. -/
def parseIntOpt : Option Str → Option ℚ
  | none => none
  | some s => parseIntJS s

/-- JavaScript addition on numbers, `NaN` propagating. -/
def jsAdd : Option ℚ → Option ℚ → Option ℚ
  | some a, some b => some (a + b)
  | _, _ => none

/-- JavaScript multiplication by a constant, `NaN` propagating. -/
def jsMul (x : Option ℚ) (c : ℚ) : Option ℚ :=
  match x with
  | some a => some (a * c)
  | none => none

/-- JavaScript division by a non-zero constant, `NaN` propagating. -/
def jsDiv (x : Option ℚ) (c : ℚ) : Option ℚ :=
  match x with
  | some a => some (a / c)
  | none => none

/-- Embedding of `parseTimestamp` (`src/services/analysis.js:9-14`).

```
function parseTimestamp(timeStr) {
    if (!timeStr) return 0;
    const [h, m, s] = timeStr.split(':');
    const [sec, ms] = s.split(',');
    return (parseInt(h) * 3600) + (parseInt(m) * 60) + parseInt(sec) + (parseInt(ms) / 1000);
}
```

The argument is `Option Str` so that the `undefined` call is
representable; `!timeStr` is true exactly for `undefined` and the empty
string.  When the `':'`-split yields fewer than three fields, `s` is
`undefined` and `s.split(',')` throws a `TypeError`, modelled as
`Except.error ()`.  The split never yields an empty array, so `sec` is
the first field (`headI`); `ms` is `undefined` when there is no comma. -/
def parseTimestamp (timeStr : Option Str) : Except Unit (Option ℚ) :=
  match timeStr with
  | none => .ok (some 0)
  | some ts =>
    if ts = [] then .ok (some 0)
    else
      match splitSep ':' [] ts with
      | h :: m :: s :: _ =>
        let segs := splitSep ',' [] s
        let sec := segs.headI
        let ms := segs[1]?
        .ok (jsAdd (jsAdd (jsAdd (jsMul (parseIntJS h) 3600) (jsMul (parseIntJS m) 60))
              (parseIntJS sec)) (jsDiv (parseIntOpt ms) 1000))
      | _ => .error ()

section SplitLemmas

theorem splitSepGo_nil (s0 : Char) (srest acc : List Char) :
    splitSepGo s0 srest acc [] = [acc.reverse] := by
  simp [splitSepGo]

theorem splitSepGo_cons_ne (s0 : Char) (acc : List Char) (x : Char) (xs : List Char)
    (hx : x ≠ s0) :
    splitSepGo s0 [] acc (x :: xs) = splitSepGo s0 [] (x :: acc) xs := by
  rw [splitSepGo]
  have : ([s0].isPrefixOf (x :: xs)) = false := by
    simp [List.isPrefixOf, Ne.symm hx]
  simp [this]

theorem splitSepGo_cons_eq (s0 : Char) (acc xs : List Char) :
    splitSepGo s0 [] acc (s0 :: xs) = acc.reverse :: splitSepGo s0 [] [] xs := by
  rw [splitSepGo]
  have : ([s0].isPrefixOf (s0 :: xs)) = true := by
    simp [List.isPrefixOf]
  simp [this]

theorem splitSepGo_no_sep (s0 : Char) (acc l : List Char) (h : s0 ∉ l) :
    splitSepGo s0 [] acc l = [acc.reverse ++ l] := by
  induction l generalizing acc with
  | nil => simp [splitSepGo_nil]
  | cons x xs ih =>
    have hx : x ≠ s0 := fun he => h (he ▸ List.mem_cons_self x xs)
    rw [splitSepGo_cons_ne s0 acc x xs hx,
      ih (x :: acc) (fun hm => h (List.mem_cons_of_mem x hm))]
    simp

theorem splitSepGo_append (s0 : Char) (acc l₁ l₂ : List Char) (h : s0 ∉ l₁) :
    splitSepGo s0 [] acc (l₁ ++ s0 :: l₂) =
      (acc.reverse ++ l₁) :: splitSepGo s0 [] [] l₂ := by
  induction l₁ generalizing acc with
  | nil => simp [splitSepGo_cons_eq]
  | cons x xs ih =>
    have hx : x ≠ s0 := fun he => h (he ▸ List.mem_cons_self x xs)
    rw [List.cons_append, splitSepGo_cons_ne s0 acc x (xs ++ s0 :: l₂) hx,
      ih (x :: acc) (fun hm => h (List.mem_cons_of_mem x hm))]
    simp

theorem splitSep_no_sep (s0 : Char) (l : List Char) (h : s0 ∉ l) :
    splitSep s0 [] l = [l] := by
  simpa using splitSepGo_no_sep s0 [] l h

end SplitLemmas

section DigitLemmas

theorem ne_of_digit {c x : Char} (h : c.isDigit = true) (hx : x.isDigit = false) :
    c ≠ x := by
  intro he
  rw [he, hx] at h
  exact Bool.false_ne_true h

theorem digit_not_white {c : Char} (h : c.isDigit = true) : isJSWhite c = false := by
  have h1 := ne_of_digit h (x := ' ') (by decide)
  have h2 := ne_of_digit h (x := '\t') (by decide)
  have h3 := ne_of_digit h (x := '\n') (by decide)
  have h4 := ne_of_digit h (x := '\r') (by decide)
  have h5 := ne_of_digit h (x := Char.ofNat 11) (by decide)
  have h6 := ne_of_digit h (x := Char.ofNat 12) (by decide)
  have h7 := ne_of_digit h (x := Char.ofNat 0xa0) (by decide)
  have h8 := ne_of_digit h (x := Char.ofNat 0xfeff) (by decide)
  simp [isJSWhite, h1, h2, h3, h4, h5, h6, h7, h8]

theorem takeWhile_digits {l : Str} (h : ∀ c ∈ l, c.isDigit = true) :
    l.takeWhile Char.isDigit = l := by
  induction l with
  | nil => rfl
  | cons c cs ih =>
    rw [List.takeWhile_cons, h c (List.mem_cons_self c cs)]
    simp [ih (fun x hx => h x (List.mem_cons_of_mem c hx))]

theorem parseIntJS_digits {l : Str} (hne : l ≠ []) (h : ∀ c ∈ l, c.isDigit = true) :
    parseIntJS l = some ((digitsToNat l : ℚ)) := by
  match l, hne with
  | c :: r, _ =>
    have hc : c.isDigit = true := h c (List.mem_cons_self c r)
    have hw : isJSWhite c = false := digit_not_white hc
    have hminus : c ≠ '-' := ne_of_digit hc (by decide)
    have hplus : c ≠ '+' := ne_of_digit hc (by decide)
    rw [parseIntJS]
    rw [List.dropWhile_cons, hw]
    simp only [Bool.false_eq_true, if_false, if_neg hminus, if_neg hplus, parseIntCore,
      takeWhile_digits h]
    simp

/-- Rational value of a single decimal digit character. -/
def dVal (c : Char) : ℚ := ((c.toNat - 48 : ℕ) : ℚ)

/-- Evaluation of `parseTimestamp` on a well-formed timestamp
`HH:MM:SS,mmm` made of arbitrary decimal digits: it succeeds and returns
`h * 3600 + m * 60 + s + ms / 1000`.  Shared by the theorems for the
timestamp-codec claim and the subtitle-parser claim. -/
theorem parseTimestamp_wellFormed (a b c d e f g h i : Char)
    (ha : a.isDigit = true) (hb : b.isDigit = true) (hc : c.isDigit = true)
    (hd : d.isDigit = true) (he : e.isDigit = true) (hf : f.isDigit = true)
    (hg : g.isDigit = true) (hh : h.isDigit = true) (hi : i.isDigit = true) :
    parseTimestamp (some [a, b, ':', c, d, ':', e, f, ',', g, h, i]) =
      .ok (some ((10 * dVal a + dVal b) * 3600 + (10 * dVal c + dVal d) * 60 +
        (10 * dVal e + dVal f) + (100 * dVal g + 10 * dVal h + dVal i) / 1000)) := by
  have hcolon : ∀ x : Char, x.isDigit = true → x ≠ ':' :=
    fun x hx => ne_of_digit hx (by decide)
  have hcomma : ∀ x : Char, x.isDigit = true → x ≠ ',' :=
    fun x hx => ne_of_digit hx (by decide)
  have hsplit1 : splitSep ':' [] [a, b, ':', c, d, ':', e, f, ',', g, h, i] =
      [[a, b], [c, d], [e, f, ',', g, h, i]] := by
    have e1 : [a, b, ':', c, d, ':', e, f, ',', g, h, i] =
        [a, b] ++ ':' :: ([c, d] ++ ':' :: [e, f, ',', g, h, i]) := by simp
    rw [splitSep, e1, splitSepGo_append ':' [] [a, b] _ (by
      intro hm
      rcases List.mem_cons.mp hm with h1 | hm
      · exact hcolon a ha h1.symm
      · rcases List.mem_cons.mp hm with h1 | hm
        · exact hcolon b hb h1.symm
        · simp at hm)]
    rw [splitSepGo_append ':' [] [c, d] _ (by
      intro hm
      rcases List.mem_cons.mp hm with h1 | hm
      · exact hcolon c hc h1.symm
      · rcases List.mem_cons.mp hm with h1 | hm
        · exact hcolon d hd h1.symm
        · simp at hm)]
    rw [splitSepGo_no_sep ':' [] _ (by
      intro hm
      rcases List.mem_cons.mp hm with h1 | hm
      · exact hcolon e he h1.symm
      · rcases List.mem_cons.mp hm with h1 | hm
        · exact hcolon f hf h1.symm
        · rcases List.mem_cons.mp hm with h1 | hm
          · exact absurd h1.symm (by decide)
          · rcases List.mem_cons.mp hm with h1 | hm
            · exact hcolon g hg h1.symm
            · rcases List.mem_cons.mp hm with h1 | hm
              · exact hcolon h hh h1.symm
              · rcases List.mem_cons.mp hm with h1 | hm
                · exact hcolon i hi h1.symm
                · simp at hm)]
    simp
  have hsplit2 : splitSep ',' [] [e, f, ',', g, h, i] = [[e, f], [g, h, i]] := by
    have e2 : [e, f, ',', g, h, i] = [e, f] ++ ',' :: [g, h, i] := by simp
    rw [splitSep, e2, splitSepGo_append ',' [] [e, f] _ (by
      intro hm
      rcases List.mem_cons.mp hm with h1 | hm
      · exact hcomma e he h1.symm
      · rcases List.mem_cons.mp hm with h1 | hm
        · exact hcomma f hf h1.symm
        · simp at hm)]
    rw [splitSepGo_no_sep ',' [] _ (by
      intro hm
      rcases List.mem_cons.mp hm with h1 | hm
      · exact hcomma g hg h1.symm
      · rcases List.mem_cons.mp hm with h1 | hm
        · exact hcomma h hh h1.symm
        · rcases List.mem_cons.mp hm with h1 | hm
          · exact hcomma i hi h1.symm
          · simp at hm)]
    simp
  have hH : parseIntJS [a, b] = some (((digitsToNat [a, b] : ℕ)) : ℚ) :=
    parseIntJS_digits (by simp) (by
      intro x hx
      rcases List.mem_cons.mp hx with h1 | hx
      · exact h1 ▸ ha
      · rcases List.mem_cons.mp hx with h1 | hx
        · exact h1 ▸ hb
        · simp at hx)
  have hM : parseIntJS [c, d] = some (((digitsToNat [c, d] : ℕ)) : ℚ) :=
    parseIntJS_digits (by simp) (by
      intro x hx
      rcases List.mem_cons.mp hx with h1 | hx
      · exact h1 ▸ hc
      · rcases List.mem_cons.mp hx with h1 | hx
        · exact h1 ▸ hd
        · simp at hx)
  have hS : parseIntJS [e, f] = some (((digitsToNat [e, f] : ℕ)) : ℚ) :=
    parseIntJS_digits (by simp) (by
      intro x hx
      rcases List.mem_cons.mp hx with h1 | hx
      · exact h1 ▸ he
      · rcases List.mem_cons.mp hx with h1 | hx
        · exact h1 ▸ hf
        · simp at hx)
  have hMs : parseIntJS [g, h, i] = some (((digitsToNat [g, h, i] : ℕ)) : ℚ) :=
    parseIntJS_digits (by simp) (by
      intro x hx
      rcases List.mem_cons.mp hx with h1 | hx
      · exact h1 ▸ hg
      · rcases List.mem_cons.mp hx with h1 | hx
        · exact h1 ▸ hh
        · rcases List.mem_cons.mp hx with h1 | hx
          · exact h1 ▸ hi
          · simp at hx)
  rw [parseTimestamp]
  simp only [if_neg (by simp : ¬([a, b, ':', c, d, ':', e, f, ',', g, h, i] : Str) = [])]
  rw [hsplit1]
  simp only [hsplit2, List.headI, List.getElem?_cons_succ, List.getElem?_cons_zero,
    parseIntOpt, hH, hM, hS, hMs, jsMul, jsAdd, jsDiv]
  have hab : ((digitsToNat [a, b] : ℕ) : ℚ) = 10 * dVal a + dVal b := by
    simp only [digitsToNat, List.foldl, dVal]
    push_cast
    ring
  have hcd : ((digitsToNat [c, d] : ℕ) : ℚ) = 10 * dVal c + dVal d := by
    simp only [digitsToNat, List.foldl, dVal]
    push_cast
    ring
  have hef : ((digitsToNat [e, f] : ℕ) : ℚ) = 10 * dVal e + dVal f := by
    simp only [digitsToNat, List.foldl, dVal]
    push_cast
    ring
  have hghi : ((digitsToNat [g, h, i] : ℕ) : ℚ) = 100 * dVal g + 10 * dVal h + dVal i := by
    simp only [digitsToNat, List.foldl, dVal]
    push_cast
    ring
  rw [hab, hcd, hef, hghi]

end DigitLemmas

/-- C6: `parseTimestamp` on a well-formed `HH:MM:SS,mmm` string returns
`h*3600 + m*60 + s + ms/1000` seconds; in particular
`parseTimestamp "00:01:05,250" = 65.25`, and for empty or undefined
input it returns `0` without raising. -/
theorem C6_parseTimestamp_wellFormed (a b c d e f g h i : Char)
    (ha : a.isDigit = true) (hb : b.isDigit = true) (hc : c.isDigit = true)
    (hd : d.isDigit = true) (he : e.isDigit = true) (hf : f.isDigit = true)
    (hg : g.isDigit = true) (hh : h.isDigit = true) (hi : i.isDigit = true) :
    parseTimestamp (some [a, b, ':', c, d, ':', e, f, ',', g, h, i]) =
      .ok (some ((10 * dVal a + dVal b) * 3600 + (10 * dVal c + dVal d) * 60 +
        (10 * dVal e + dVal f) + (100 * dVal g + 10 * dVal h + dVal i) / 1000)) ∧
    parseTimestamp (some ['0', '0', ':', '0', '1', ':', '0', '5', ',', '2', '5', '0']) =
      .ok (some (65.25 : ℚ)) ∧
    parseTimestamp none = .ok (some 0) ∧
    parseTimestamp (some []) = .ok (some 0) := by
  refine ⟨parseTimestamp_wellFormed a b c d e f g h i ha hb hc hd he hf hg hh hi, ?_, rfl, rfl⟩
  have h0 := parseTimestamp_wellFormed '0' '0' '0' '1' '0' '5' '2' '5' '0'
    (by decide) (by decide) (by decide) (by decide) (by decide) (by decide)
    (by decide) (by decide) (by decide)
  rw [h0]
  have t0 : '0'.toNat = 48 := rfl
  have t1 : '1'.toNat = 49 := rfl
  have t2 : '2'.toNat = 50 := rfl
  have t5 : '5'.toNat = 53 := rfl
  simp only [dVal, t0, t1, t2, t5]
  norm_num

/-- Witness for C6 at the concrete digits of `"00:01:05,250"`. -/
theorem C6_parseTimestamp_wellFormed_witness :
    ('0'.isDigit = true) ∧ ('1'.isDigit = true) ∧ ('2'.isDigit = true) ∧ ('5'.isDigit = true) ∧
    parseTimestamp (some ['0', '0', ':', '0', '1', ':', '0', '5', ',', '2', '5', '0']) =
      .ok (some (65.25 : ℚ)) :=
  ⟨by decide, by decide, by decide, by decide,
    (C6_parseTimestamp_wellFormed '0' '0' '0' '1' '0' '5' '2' '5' '0'
      (by decide) (by decide) (by decide) (by decide) (by decide) (by decide)
      (by decide) (by decide) (by decide)).2.1⟩

/-- C9: `parseTimestamp` is not total on non-empty strings: any non-empty
string containing no `':'` makes the destructured `s` component
`undefined`, so `s.split(',')` raises a `TypeError` (modelled as
`Except.error ()`) instead of returning `0`. -/
theorem C9_parseTimestamp_throws (s : Str) (hne : s ≠ []) (hcolon : ':' ∉ s) :
    parseTimestamp (some s) = .error () := by
  rw [parseTimestamp, if_neg hne, splitSep_no_sep ':' s hcolon]

/-- Witness for C9 at the concrete input `"abc"`. -/
theorem C9_parseTimestamp_throws_witness :
    ((['a', 'b', 'c'] : Str) ≠ []) ∧ (':' ∉ (['a', 'b', 'c'] : Str)) ∧
    parseTimestamp (some ['a', 'b', 'c']) = .error () :=
  ⟨by decide, by decide, C9_parseTimestamp_throws ['a', 'b', 'c'] (by decide) (by decide)⟩

/-- Parsed subtitle entry, as pushed by `parseSRT`
(`src/services/analysis.js:33-39`). -/
structure SRTEntry where
  id : Str
  timeLine : Str
  startSeconds : Option ℚ
  text : Str
  fullBlock : Str
deriving DecidableEq, Inhabited

/-- Attempted match of the regular expression
`/(\d{2}:\d{2}:\d{2},\d{3}) -->/` at the start of the string: on success
returns the captured group (the twelve characters of the timestamp). -/
def checkTS : Str → Option Str
  | a :: b :: c :: d :: e :: f :: g :: h :: i :: j :: k :: l :: m :: n :: o :: p :: _ =>
    if a.isDigit && b.isDigit && (c == ':') && d.isDigit && e.isDigit && (f == ':') &&
       g.isDigit && h.isDigit && (i == ',') && j.isDigit && k.isDigit && l.isDigit &&
       (m == ' ') && (n == '-') && (o == '-') && (p == '>')
    then some [a, b, c, d, e, f, g, h, i, j, k, l]
    else none
  | _ => none

/-- Leftmost match of `/(\d{2}:\d{2}:\d{2},\d{3}) -->/` anywhere in the
string, as `timeLine.match(...)` computes it
(`src/services/analysis.js:30`). -/
def findTS : Str → Option Str
  | [] => none
  | c :: cs =>
    match checkTS (c :: cs) with
    | some g => some g
    | none => findTS cs

/-- Non-blank lines of a block: `block.split('\n').filter(l => l.trim() !== '')`
(`src/services/analysis.js:23`).  A line survives `trim` exactly when it
contains some non-whitespace character. -/
def goodLines (block : Str) : List Str :=
  (splitSep '\n' [] block).filter (fun l => l.any (fun c => !isJSWhite c))

/-- Blocks of the normalized input:
`srtContent.replace(/\r\n/g, '\n').split('\n\n')`
(`src/services/analysis.js:19`). -/
def srtBlocks (srtContent : Str) : List Str :=
  splitSep '\n' ['\n'] (replaceCRLF srtContent)

/-- Start-seconds value computed for one block whose time line is
`timeLine`: `timeMatch ? parseTimestamp(timeMatch[1]) : 0`.  The
`parseTimestamp` call can in principle raise, hence the `Except`. -/
def blockStart (timeLine : Str) : Except Unit (Option ℚ) :=
  match findTS timeLine with
  | some t => parseTimestamp (some t)
  | none => .ok (some 0)

/-- Processing of one block inside the `forEach` of `parseSRT`
(`src/services/analysis.js:22-41`): blocks with fewer than 3 non-blank
lines are skipped, otherwise one entry is appended.  `lines[0]` and
`lines[1]` are taken with `headI` since the length guard ensures they
exist; the remaining lines are joined with a single space. -/
def parseSRTStep (entries : List SRTEntry) (block : Str) : Except Unit (List SRTEntry) :=
  let lines := goodLines block
  if 3 ≤ lines.length then
    match blockStart ((lines.drop 1).headI) with
    | .error e => .error e
    | .ok st =>
      .ok (entries ++ [⟨lines.headI, (lines.drop 1).headI, st,
        List.intercalate [' '] (lines.drop 2), block⟩])
  else .ok entries

/-- Worker iterating `parseSRTStep` over the blocks, propagating a raised
exception (which in fact never occurs, see `C8_parseSRT`). -/
def parseSRTGo (entries : List SRTEntry) : List Str → Except Unit (List SRTEntry)
  | [] => .ok entries
  | b :: bs =>
    match parseSRTStep entries b with
    | .error e => .error e
    | .ok entries2 => parseSRTGo entries2 bs

/-- Embedding of `parseSRT` (`src/services/analysis.js:17-44`): normalize
line endings, split into blocks on blank lines, and collect one entry per
block having at least 3 non-blank lines. -/
def parseSRT (srtContent : Str) : Except Unit (List SRTEntry) :=
  parseSRTGo [] (srtBlocks srtContent)

/-- Test used by `parseSRT` to keep a block: at least 3 non-blank lines. -/
def goodBlock (b : Str) : Bool := 3 ≤ (goodLines b).length

/-- Entry produced for a kept block, as a total function of the block
(the characterization proved in `C8_parseSRT`).  The `error` arm of the
inner match is unreachable because matched timestamps always parse. -/
def blockEntry (block : Str) : SRTEntry :=
  let lines := goodLines block
  ⟨lines.headI, (lines.drop 1).headI,
    (match blockStart ((lines.drop 1).headI) with
     | .ok v => v
     | .error _ => none),
    List.intercalate [' '] (lines.drop 2), block⟩

section ParseSRTLemmas

theorem checkTS_shape {s g : Str} (hg : checkTS s = some g) :
    ∃ a b c d e f g1 h1 i1 : Char,
      (a.isDigit = true ∧ b.isDigit = true ∧ c.isDigit = true ∧ d.isDigit = true ∧
       e.isDigit = true ∧ f.isDigit = true ∧ g1.isDigit = true ∧ h1.isDigit = true ∧
       i1.isDigit = true) ∧
      g = [a, b, ':', c, d, ':', e, f, ',', g1, h1, i1] := by
  rcases s with _ | ⟨a, _ | ⟨b, _ | ⟨c, _ | ⟨d, _ | ⟨e, _ | ⟨f, _ | ⟨g2, _ | ⟨h2, _ |
    ⟨i2, _ | ⟨j, _ | ⟨k, _ | ⟨l, _ | ⟨m, _ | ⟨n, _ | ⟨o, _ | ⟨p, rest⟩⟩⟩⟩⟩⟩⟩⟩⟩⟩⟩⟩⟩⟩⟩⟩ <;>
    simp only [checkTS] at hg
  all_goals try exact Option.noConfusion hg
  split at hg
  case isTrue hcond =>
    simp only [Bool.and_eq_true, beq_iff_eq] at hcond
    obtain ⟨⟨⟨⟨⟨⟨⟨⟨⟨⟨⟨⟨⟨⟨⟨ha, hb⟩, hc⟩, hd⟩, he⟩, hf⟩, hg2⟩, hh2⟩, hi2⟩, hj⟩, hk⟩,
      hl⟩, hm⟩, hn⟩, ho⟩, hp⟩ := hcond
    subst hc hf hi2
    exact ⟨a, b, d, e, g2, h2, j, k, l,
      ⟨ha, hb, hd, he, hg2, hh2, hj, hk, hl⟩, (Option.some_inj.mp hg).symm⟩
  case isFalse => exact absurd hg (by simp)

theorem findTS_ok {tl t : Str} (h : findTS tl = some t) :
    ∃ q : ℚ, parseTimestamp (some t) = .ok (some q) ∧ 0 ≤ q := by
  induction tl with
  | nil => simp [findTS] at h
  | cons c cs ih =>
    rw [findTS] at h
    cases hck : checkTS (c :: cs) with
    | some g =>
      rw [hck] at h
      obtain ⟨a, b, c1, d, e, f, g1, h1, i1, ⟨ha, hb, hc1, hd, he, hf, hg1, hh1, hi1⟩, hge⟩ :=
        checkTS_shape hck
      refine ⟨(10 * dVal a + dVal b) * 3600 + (10 * dVal c1 + dVal d) * 60 +
        (10 * dVal e + dVal f) + (100 * dVal g1 + 10 * dVal h1 + dVal i1) / 1000, ?_, ?_⟩
      · have ht : t = g := (Option.some_inj.mp h).symm
        rw [ht, hge]
        exact parseTimestamp_wellFormed a b c1 d e f g1 h1 i1 ha hb hc1 hd he hf hg1 hh1 hi1
      · have hd0 : ∀ x : Char, (0 : ℚ) ≤ dVal x := fun x => Nat.cast_nonneg _
        have h1000 : (0 : ℚ) ≤ (100 * dVal g1 + 10 * dVal h1 + dVal i1) / 1000 := by
          apply div_nonneg _ (by norm_num)
          have := hd0 g1; have := hd0 h1; have := hd0 i1
          nlinarith
        have := hd0 a; have := hd0 b; have := hd0 c1; have := hd0 d
        have := hd0 e; have := hd0 f
        nlinarith
    | none =>
      rw [hck] at h
      exact ih h

theorem blockStart_ok (tl : Str) :
    ∃ q : ℚ, blockStart tl = .ok (some q) ∧ 0 ≤ q := by
  rw [blockStart]
  cases hf : findTS tl with
  | some t => exact findTS_ok hf
  | none => exact ⟨0, rfl, le_refl 0⟩

theorem parseSRTStep_good (entries : List SRTEntry) (b : Str)
    (h : 3 ≤ (goodLines b).length) :
    parseSRTStep entries b = .ok (entries ++ [blockEntry b]) := by
  obtain ⟨q, hq, _⟩ := blockStart_ok ((goodLines b).drop 1).headI
  rw [parseSRTStep, blockEntry]
  simp only [if_pos h, hq]

theorem parseSRTStep_bad (entries : List SRTEntry) (b : Str)
    (h : ¬ 3 ≤ (goodLines b).length) :
    parseSRTStep entries b = .ok entries := by
  rw [parseSRTStep]
  simp only [if_neg h]

theorem parseSRTGo_eq (bs : List Str) :
    ∀ entries, parseSRTGo entries bs = .ok (entries ++ (bs.filter goodBlock).map blockEntry) := by
  induction bs with
  | nil => intro entries; simp [parseSRTGo]
  | cons b rest ih =>
    intro entries
    by_cases h : 3 ≤ (goodLines b).length
    · have hstep : parseSRTGo entries (b :: rest) = parseSRTGo (entries ++ [blockEntry b]) rest := by
        rw [parseSRTGo, parseSRTStep_good entries b h]
      rw [hstep, ih]
      have hgb : goodBlock b = true := decide_eq_true h
      simp [hgb]
    · have hstep : parseSRTGo entries (b :: rest) = parseSRTGo entries rest := by
        rw [parseSRTGo, parseSRTStep_bad entries b h]
      rw [hstep, ih]
      have hgb : goodBlock b = false := decide_eq_false h
      simp [hgb]

theorem intercalate_space_ne_nil {x : Str} (xs : List Str) (hx : x ≠ []) :
    List.intercalate [' '] (x :: xs) ≠ [] := by
  cases xs with
  | nil => simpa [List.intercalate] using hx
  | cons y ys =>
    simp only [List.intercalate, List.intersperse, List.flatten_cons]
    intro hcontra
    rw [List.append_eq_nil] at hcontra
    exact hx hcontra.1

end ParseSRTLemmas

/-- C8: `parseSRT` returns (without raising) exactly one entry per block
with at least 3 non-blank lines, each with non-empty text and a
non-negative real `startSeconds`; blocks with fewer than 3 non-blank
lines contribute nothing, and with no such block the result is the empty
sequence rather than an error. -/
theorem C8_parseSRT (content : Str) :
    parseSRT content = .ok (((srtBlocks content).filter goodBlock).map blockEntry) ∧
    (∀ e ∈ ((srtBlocks content).filter goodBlock).map blockEntry,
      e.text ≠ [] ∧ ∃ q : ℚ, e.startSeconds = some q ∧ 0 ≤ q) ∧
    ((srtBlocks content).filter goodBlock = [] → parseSRT content = .ok []) := by
  have hmain : parseSRT content = .ok (((srtBlocks content).filter goodBlock).map blockEntry) := by
    rw [parseSRT, parseSRTGo_eq]
    simp
  refine ⟨hmain, ?_, ?_⟩
  · intro e he
    obtain ⟨b, hb, hbe⟩ := List.mem_map.mp he
    have hgood : goodBlock b = true := List.of_mem_filter hb
    have hlen : 3 ≤ (goodLines b).length := of_decide_eq_true hgood
    constructor
    · have hdroplen : (goodLines b).drop 2 ≠ [] := by
        intro hcontra
        have := List.length_drop 2 (goodLines b)
        rw [hcontra] at this
        simp at this
        omega
      obtain ⟨x, xs, hxxs⟩ := List.exists_cons_of_ne_nil hdroplen
      have hxmem : x ∈ goodLines b := by
        apply List.drop_subset 2
        rw [hxxs]
        exact List.mem_cons_self x xs
      have hxne : x ≠ [] := by
        have hxmem2 := hxmem
        rw [goodLines] at hxmem2
        have hxany := (List.mem_filter.mp hxmem2).2
        intro hcontra
        rw [hcontra] at hxany
        simp at hxany
      rw [← hbe]
      simp only [blockEntry]
      rw [hxxs]
      exact intercalate_space_ne_nil xs hxne
    · obtain ⟨q, hq, hq0⟩ := blockStart_ok ((goodLines b).drop 1).headI
      refine ⟨q, ?_, hq0⟩
      rw [← hbe]
      simp only [blockEntry, hq]
  · intro hempty
    rw [hmain, hempty]
    simp

/-- Witness for C8 at the concrete two-block input
`"1\n00:00:01,000 --> 00:00:02,000\nhello\n\nshort"` (one well-formed
block and one dropped block). -/
theorem C8_parseSRT_witness :
    parseSRT ("1\n00:00:01,000 --> 00:00:02,000\nhello\n\nshort".toList) =
      .ok (((srtBlocks ("1\n00:00:01,000 --> 00:00:02,000\nhello\n\nshort".toList)).filter
        goodBlock).map blockEntry) :=
  (C8_parseSRT ("1\n00:00:01,000 --> 00:00:02,000\nhello\n\nshort".toList)).1

/-- JavaScript subtraction on numbers, `NaN` propagating. -/
def jsSub : Option ℚ → Option ℚ → Option ℚ
  | some a, some b => some (a - b)
  | _, _ => none

/-- JavaScript `x > y` on numbers: `false` whenever an operand is `NaN`. -/
def jsGt : Option ℚ → Option ℚ → Bool
  | some a, some b => decide (b < a)
  | _, _ => false

/-- JavaScript `x <= y` on numbers: `false` whenever an operand is `NaN`. -/
def jsLe : Option ℚ → Option ℚ → Bool
  | some a, some b => decide (a ≤ b)
  | _, _ => false

/-- JavaScript strict equality `x === c` between a number and a numeric
literal: `false` for `NaN`. -/
def jsEqNum (x : Option ℚ) (c : ℚ) : Bool :=
  x = some c

/-- Mutable state of the `forEach` loop in `chunkSRTByDuration`
(`src/services/analysis.js:49-51`): the closed chunks, the currently
open chunk, and `chunkStartTime` (initially the sentinel `-1`). -/
structure ChunkSt where
  chunks : List (List SRTEntry)
  currentChunk : List SRTEntry
  chunkStartTime : Option ℚ
deriving DecidableEq

/-- One iteration of the `forEach` in `chunkSRTByDuration`
(`src/services/analysis.js:53-63`):

```
if (chunkStartTime === -1) chunkStartTime = entry.startSeconds;
if (entry.startSeconds - chunkStartTime > durationSeconds && currentChunk.length > 0) {
    chunks.push(currentChunk); currentChunk = []; chunkStartTime = entry.startSeconds;
}
currentChunk.push(entry);
```
-/
def chunkStep (durationSeconds : ℚ) (st : ChunkSt) (entry : SRTEntry) : ChunkSt :=
  if jsGt (jsSub entry.startSeconds
        (if jsEqNum st.chunkStartTime (-1) then entry.startSeconds else st.chunkStartTime))
      (some durationSeconds) && !st.currentChunk.isEmpty then
    ⟨st.chunks ++ [st.currentChunk], [entry], entry.startSeconds⟩
  else
    ⟨st.chunks, st.currentChunk ++ [entry],
      if jsEqNum st.chunkStartTime (-1) then entry.startSeconds else st.chunkStartTime⟩

/-- Embedding of `chunkSRTByDuration` (`src/services/analysis.js:47-70`):
fold the per-entry step over the entries from the initial state, then
flush the final open chunk if non-empty. -/
def chunkSRTByDuration (entries : List SRTEntry) (durationMinutes : ℚ := 10) :
    List (List SRTEntry) :=
  let durationSeconds := durationMinutes * 60
  let final := entries.foldl (chunkStep durationSeconds) ⟨[], [], some (-1)⟩
  if final.currentChunk.isEmpty then final.chunks else final.chunks ++ [final.currentChunk]

section ChunkLemmas

theorem chunkStep_close (durationSeconds : ℚ) (st : ChunkSt) (entry : SRTEntry)
    (hcond : (jsGt (jsSub entry.startSeconds
        (if jsEqNum st.chunkStartTime (-1) then entry.startSeconds else st.chunkStartTime))
      (some durationSeconds) && !st.currentChunk.isEmpty) = true) :
    chunkStep durationSeconds st entry =
      ⟨st.chunks ++ [st.currentChunk], [entry], entry.startSeconds⟩ := by
  rw [chunkStep, if_pos hcond]

theorem chunkStep_push (durationSeconds : ℚ) (st : ChunkSt) (entry : SRTEntry)
    (hcond : ¬ (jsGt (jsSub entry.startSeconds
        (if jsEqNum st.chunkStartTime (-1) then entry.startSeconds else st.chunkStartTime))
      (some durationSeconds) && !st.currentChunk.isEmpty) = true) :
    chunkStep durationSeconds st entry =
      ⟨st.chunks, st.currentChunk ++ [entry],
        if jsEqNum st.chunkStartTime (-1) then entry.startSeconds else st.chunkStartTime⟩ := by
  rw [chunkStep, if_neg hcond]

theorem chunkFold_partition (durationSeconds : ℚ) (entries : List SRTEntry) :
    ∀ st : ChunkSt,
      (entries.foldl (chunkStep durationSeconds) st).chunks.flatten ++
        (entries.foldl (chunkStep durationSeconds) st).currentChunk =
        st.chunks.flatten ++ st.currentChunk ++ entries ∧
      ((∀ c ∈ st.chunks, c ≠ []) →
        ∀ c ∈ (entries.foldl (chunkStep durationSeconds) st).chunks, c ≠ []) := by
  induction entries with
  | nil => intro st; simp
  | cons e rest ih =>
    intro st
    rw [List.foldl_cons]
    rcases ih (chunkStep durationSeconds st e) with ⟨ih1, ih2⟩
    by_cases hcond : (jsGt (jsSub e.startSeconds
        (if jsEqNum st.chunkStartTime (-1) then e.startSeconds else st.chunkStartTime))
        (some durationSeconds) && !st.currentChunk.isEmpty) = true
    · rw [chunkStep_close durationSeconds st e hcond] at ih1 ih2 ⊢
      constructor
      · rw [ih1]
        simp
      · intro hne
        apply ih2
        intro c hc
        rcases List.mem_append.mp hc with hc1 | hc2
        · exact hne c hc1
        · have hcc : c = st.currentChunk := List.mem_singleton.mp hc2
          have hB : (!st.currentChunk.isEmpty) = true := ((Bool.and_eq_true _ _).mp hcond).2
          rw [hcc]
          intro h0
          rw [h0] at hB
          simp at hB
    · rw [chunkStep_push durationSeconds st e hcond] at ih1 ih2 ⊢
      constructor
      · rw [ih1]
        simp
      · intro hne
        exact ih2 hne

end ChunkLemmas

/-- C3: for every entry sequence sorted non-decreasingly by
`startSeconds` and every window `w = minutes * 60 > 0`, concatenating in
order the chunks produced by `chunkSRTByDuration` reproduces the input
exactly, and no chunk is empty.  (The proof does not even need the two
hypotheses; they are kept because the claim states them.) -/
theorem C3_chunk_partition (entries : List SRTEntry) (durationMinutes : ℚ)
    (hsorted : List.Pairwise (fun a b => jsLe a.startSeconds b.startSeconds = true) entries)
    (hw : 0 < durationMinutes * 60) :
    (chunkSRTByDuration entries durationMinutes).flatten = entries ∧
    ∀ c ∈ chunkSRTByDuration entries durationMinutes, c ≠ [] := by
  have h := chunkFold_partition (durationMinutes * 60) entries ⟨[], [], some (-1)⟩
  rcases h with ⟨h1, h2⟩
  simp only [List.flatten_nil, List.nil_append] at h1
  have h2b := h2 (by intro c hc; simp at hc)
  have hres : chunkSRTByDuration entries durationMinutes =
      (if (entries.foldl (chunkStep (durationMinutes * 60)) ⟨[], [], some (-1)⟩).currentChunk.isEmpty
       then (entries.foldl (chunkStep (durationMinutes * 60)) ⟨[], [], some (-1)⟩).chunks
       else (entries.foldl (chunkStep (durationMinutes * 60)) ⟨[], [], some (-1)⟩).chunks ++
         [(entries.foldl (chunkStep (durationMinutes * 60)) ⟨[], [], some (-1)⟩).currentChunk]) := rfl
  by_cases hemp : (entries.foldl (chunkStep (durationMinutes * 60)) ⟨[], [], some (-1)⟩).currentChunk.isEmpty = true
  · rw [hres, if_pos hemp]
    rw [List.isEmpty_iff] at hemp
    rw [hemp, List.append_nil] at h1
    exact ⟨h1, h2b⟩
  · rw [hres, if_neg (by rw [eq_false_of_ne_true hemp]; exact Bool.false_ne_true)]
    have hne : (entries.foldl (chunkStep (durationMinutes * 60)) ⟨[], [], some (-1)⟩).currentChunk ≠ [] := by
      intro h0
      rw [h0] at hemp
      simp at hemp
    constructor
    · rw [List.flatten_append]
      simpa using h1
    · intro c hc
      rcases List.mem_append.mp hc with hc1 | hc2
      · exact h2b c hc1
      · have hcc := List.mem_singleton.mp hc2
        rw [hcc]
        exact hne

/-- Span bound satisfied by every chunk the loop builds: no element lies
more than the window after the chunk's first element (in the JavaScript
comparison semantics). -/
def spanOK (w60 : ℚ) (c : List SRTEntry) : Prop :=
  ∀ x ∈ c, jsGt (jsSub x.startSeconds c.headI.startSeconds) (some w60) = false

/-- Loop invariant of `chunkSRTByDuration` when no entry has
`startSeconds = -1`: closed chunks satisfy the span bound, and the open
chunk (when non-empty) has `chunkStartTime` equal to its first entry's
`startSeconds` and satisfies the span bound as well. -/
def chunkInv (w60 : ℚ) (st : ChunkSt) : Prop :=
  (∀ c ∈ st.chunks, spanOK w60 c) ∧
  (st.currentChunk = [] → st.chunkStartTime = some (-1)) ∧
  (st.currentChunk ≠ [] →
    st.chunkStartTime = st.currentChunk.headI.startSeconds ∧
    st.currentChunk.headI.startSeconds ≠ some (-1) ∧
    spanOK w60 st.currentChunk)

theorem spanOK_single (w60 : ℚ) (hw : 0 < w60) (e : SRTEntry) : spanOK w60 [e] := by
  intro x hx
  have hxe : x = e := List.mem_singleton.mp hx
  subst hxe
  cases hs : x.startSeconds with
  | none => simp [jsSub, jsGt, hs]
  | some q =>
    simp only [List.headI, jsSub, hs, jsGt, sub_self, decide_eq_false_iff_not, not_lt]
    exact le_of_lt hw


theorem chunkStep_inv (w60 : ℚ) (hw : 0 < w60) (st : ChunkSt) (e : SRTEntry)
    (he : e.startSeconds ≠ some (-1)) (hinv : chunkInv w60 st) :
    chunkInv w60 (chunkStep w60 st e) := by
  rcases hinv with ⟨hclosed, hinit, hopen⟩
  by_cases hcur : st.currentChunk = []
  · have hsent : st.chunkStartTime = some (-1) := hinit hcur
    have hcond : (jsGt (jsSub e.startSeconds
        (if jsEqNum st.chunkStartTime (-1) then e.startSeconds else st.chunkStartTime))
        (some w60) && !st.currentChunk.isEmpty) = false := by
      rw [hcur]
      simp
    rw [chunkStep_push w60 st e (by rw [hcond]; exact Bool.false_ne_true)]
    have hsentB : jsEqNum st.chunkStartTime (-1) = true := by
      rw [hsent]
      simp [jsEqNum]
    refine ⟨hclosed, ?_, ?_⟩
    · intro hcontra
      rw [hcur] at hcontra
      simp at hcontra
    · intro _
      rw [hcur]
      simp only [List.nil_append, List.headI, if_pos hsentB]
      exact ⟨trivial, he, spanOK_single w60 hw e⟩
  · obtain ⟨e0, rest, hc0⟩ := List.exists_cons_of_ne_nil hcur
    obtain ⟨hcst, hne0, hspan⟩ := hopen hcur
    have hsentB : jsEqNum st.chunkStartTime (-1) = false := by
      rw [hcst]
      simp only [jsEqNum, decide_eq_false_iff_not]
      exact hne0
    have hinner : (if jsEqNum st.chunkStartTime (-1) then e.startSeconds
        else st.chunkStartTime) = st.currentChunk.headI.startSeconds := by
      rw [if_neg (by rw [hsentB]; exact Bool.false_ne_true)]
      exact hcst
    by_cases hb : jsGt (jsSub e.startSeconds st.currentChunk.headI.startSeconds)
        (some w60) = true
    · have hcond : (jsGt (jsSub e.startSeconds
          (if jsEqNum st.chunkStartTime (-1) then e.startSeconds else st.chunkStartTime))
          (some w60) && !st.currentChunk.isEmpty) = true := by
        rw [hinner, hb, hc0]
        simp
      rw [chunkStep_close w60 st e hcond]
      refine ⟨?_, ?_, ?_⟩
      · intro c hcmem
        rcases List.mem_append.mp hcmem with h1 | h2
        · exact hclosed c h1
        · rw [List.mem_singleton.mp h2]
          exact hspan
      · intro hcontra
        simp at hcontra
      · intro _
        simp only [List.headI]
        exact ⟨trivial, he, spanOK_single w60 hw e⟩
    · have hcond : (jsGt (jsSub e.startSeconds
          (if jsEqNum st.chunkStartTime (-1) then e.startSeconds else st.chunkStartTime))
          (some w60) && !st.currentChunk.isEmpty) = false := by
        rw [hinner, eq_false_of_ne_true hb]
        simp
      rw [chunkStep_push w60 st e (by rw [hcond]; exact Bool.false_ne_true)]
      have hheads : (st.currentChunk ++ [e]).headI = st.currentChunk.headI := by
        rw [hc0]
        simp
      refine ⟨hclosed, ?_, ?_⟩
      · intro hcontra
        rw [hc0] at hcontra
        simp at hcontra
      · intro _
        simp only [hheads, hinner]
        refine ⟨trivial, hne0, ?_⟩
        intro x hx
        rw [hheads]
        rcases List.mem_append.mp hx with h1 | h2
        · exact hspan x h1
        · rw [List.mem_singleton.mp h2]
          exact eq_false_of_ne_true hb

theorem chunkFold_inv (w60 : ℚ) (hw : 0 < w60) (entries : List SRTEntry)
    (hne : ∀ e ∈ entries, e.startSeconds ≠ some (-1)) :
    ∀ st : ChunkSt, chunkInv w60 st →
      chunkInv w60 (entries.foldl (chunkStep w60) st) := by
  induction entries with
  | nil => intro st h; exact h
  | cons e rest ih =>
    intro st h
    rw [List.foldl_cons]
    exact ih (fun x hx => hne x (List.mem_cons_of_mem e hx))
      (chunkStep w60 st e)
      (chunkStep_inv w60 hw st e (hne e (List.mem_cons_self e rest)) h)

theorem jsLe_some {x y : Option ℚ} (h : jsLe x y = true) :
    ∃ qa qb : ℚ, x = some qa ∧ y = some qb ∧ qa ≤ qb := by
  cases x with
  | none => simp [jsLe] at h
  | some a =>
    cases y with
    | none => simp [jsLe] at h
    | some b =>
      simp only [jsLe, decide_eq_true_eq] at h
      exact ⟨a, b, rfl, rfl, h⟩

theorem sorted_reals {entries : List SRTEntry}
    (hs : List.Pairwise (fun a b => jsLe a.startSeconds b.startSeconds = true) entries)
    (hlen : 2 ≤ entries.length) :
    ∀ e ∈ entries, ∃ q : ℚ, e.startSeconds = some q := by
  match entries, hlen with
  | a :: b :: rest, _ =>
    have hfirst := (List.pairwise_cons.mp hs).1
    intro e he
    rcases List.mem_cons.mp he with h1 | h2
    · have hab : jsLe a.startSeconds b.startSeconds = true :=
        hfirst b (List.mem_cons_self b rest)
      obtain ⟨qa, qb, hqa, _, _⟩ := jsLe_some hab
      exact ⟨qa, h1 ▸ hqa⟩
    · have hae : jsLe a.startSeconds e.startSeconds = true := hfirst e h2
      obtain ⟨qa, qb, _, hqb, _⟩ := jsLe_some hae
      exact ⟨qb, hqb⟩

theorem chunk_flatten (entries : List SRTEntry) (durationMinutes : ℚ) :
    (chunkSRTByDuration entries durationMinutes).flatten = entries := by
  have h := (chunkFold_partition (durationMinutes * 60) entries ⟨[], [], some (-1)⟩).1
  simp only [List.flatten_nil, List.nil_append] at h
  have hres : chunkSRTByDuration entries durationMinutes =
      (if (entries.foldl (chunkStep (durationMinutes * 60)) ⟨[], [], some (-1)⟩).currentChunk.isEmpty
       then (entries.foldl (chunkStep (durationMinutes * 60)) ⟨[], [], some (-1)⟩).chunks
       else (entries.foldl (chunkStep (durationMinutes * 60)) ⟨[], [], some (-1)⟩).chunks ++
         [(entries.foldl (chunkStep (durationMinutes * 60)) ⟨[], [], some (-1)⟩).currentChunk]) := rfl
  by_cases hemp : (entries.foldl (chunkStep (durationMinutes * 60)) ⟨[], [], some (-1)⟩).currentChunk.isEmpty = true
  · rw [hres, if_pos hemp]
    rw [List.isEmpty_iff] at hemp
    rw [hemp, List.append_nil] at h
    exact h
  · rw [hres, if_neg (by rw [eq_false_of_ne_true hemp]; exact Bool.false_ne_true)]
    rw [List.flatten_append]
    simpa using h

theorem chunk_spanOK (entries : List SRTEntry) (durationMinutes : ℚ)
    (hw : 0 < durationMinutes * 60)
    (hne : ∀ e ∈ entries, e.startSeconds ≠ some (-1)) :
    ∀ c ∈ chunkSRTByDuration entries durationMinutes, spanOK (durationMinutes * 60) c := by
  have hinv : chunkInv (durationMinutes * 60)
      (entries.foldl (chunkStep (durationMinutes * 60)) ⟨[], [], some (-1)⟩) := by
    apply chunkFold_inv (durationMinutes * 60) hw entries hne
    refine ⟨by simp, by simp, ?_⟩
    intro hcontra
    simp at hcontra
  have hres : chunkSRTByDuration entries durationMinutes =
      (if (entries.foldl (chunkStep (durationMinutes * 60)) ⟨[], [], some (-1)⟩).currentChunk.isEmpty
       then (entries.foldl (chunkStep (durationMinutes * 60)) ⟨[], [], some (-1)⟩).chunks
       else (entries.foldl (chunkStep (durationMinutes * 60)) ⟨[], [], some (-1)⟩).chunks ++
         [(entries.foldl (chunkStep (durationMinutes * 60)) ⟨[], [], some (-1)⟩).currentChunk]) := rfl
  intro c hcmem
  by_cases hemp : (entries.foldl (chunkStep (durationMinutes * 60)) ⟨[], [], some (-1)⟩).currentChunk.isEmpty = true
  · rw [hres, if_pos hemp] at hcmem
    exact hinv.1 c hcmem
  · rw [hres, if_neg (by rw [eq_false_of_ne_true hemp]; exact Bool.false_ne_true)] at hcmem
    rcases List.mem_append.mp hcmem with h1 | h2
    · exact hinv.1 c h1
    · rw [List.mem_singleton.mp h2]
      apply (hinv.2.2 ?_).2.2
      intro h0
      rw [h0] at hemp
      simp at hemp

/-- C2 amended: for every entry sequence sorted non-decreasingly by
`startSeconds` in which no entry has `startSeconds = -1` (the loop's
sentinel value), and every window `w = minutes * 60 > 0`, every chunk
produced by `chunkSRTByDuration` has exactly one entry or satisfies
`lastEntry.startSeconds - firstEntry.startSeconds <= w`. -/
theorem C2_chunk_span (entries : List SRTEntry) (durationMinutes : ℚ)
    (hsorted : List.Pairwise (fun a b => jsLe a.startSeconds b.startSeconds = true) entries)
    (hne : ∀ e ∈ entries, e.startSeconds ≠ some (-1))
    (hw : 0 < durationMinutes * 60) :
    ∀ c ∈ chunkSRTByDuration entries durationMinutes, ∀ hc : c ≠ [],
      c.length = 1 ∨ ∃ qf ql : ℚ, c.headI.startSeconds = some qf ∧
        (c.getLast hc).startSeconds = some ql ∧ ql - qf ≤ durationMinutes * 60 := by
  intro c hcmem hc
  by_cases hl1 : c.length = 1
  · exact Or.inl hl1
  right
  have hlen2 : 2 ≤ c.length := by
    have h0 : c.length ≠ 0 := by
      intro h0
      exact hc (List.length_eq_zero.mp h0)
    omega
  have hsub : ∀ x ∈ c, x ∈ entries := by
    intro x hx
    rw [← chunk_flatten entries durationMinutes]
    exact List.mem_flatten.mpr ⟨c, hcmem, hx⟩
  have hentlen : 2 ≤ entries.length := by
    have h1 : ((chunkSRTByDuration entries durationMinutes).map List.length).sum =
        entries.length := by
      rw [← List.length_flatten, chunk_flatten]
    have h2 : c.length ∈ (chunkSRTByDuration entries durationMinutes).map List.length :=
      List.mem_map_of_mem List.length hcmem
    have h3 : c.length ≤ ((chunkSRTByDuration entries durationMinutes).map List.length).sum :=
      List.single_le_sum (fun x _ => Nat.zero_le x) _ h2
    omega
  have hreal := sorted_reals hsorted hentlen
  have hheadmem : c.headI ∈ c := by
    obtain ⟨x, xs, hx⟩ := List.exists_cons_of_ne_nil hc
    rw [hx]
    simp
  have hlastmem : c.getLast hc ∈ c := List.getLast_mem hc
  obtain ⟨qf, hqf⟩ := hreal c.headI (hsub _ hheadmem)
  obtain ⟨ql, hql⟩ := hreal (c.getLast hc) (hsub _ hlastmem)
  refine ⟨qf, ql, hqf, hql, ?_⟩
  have hspan := chunk_spanOK entries durationMinutes hw hne c hcmem (c.getLast hc) hlastmem
  rw [hql, hqf] at hspan
  simp only [jsSub, jsGt, decide_eq_false_iff_not, not_lt] at hspan
  exact hspan

/-- Witness for the amended C2 on a concrete sorted two-entry list with
window one minute. -/
theorem C2_chunk_span_witness :
    List.Pairwise (fun a b : SRTEntry => jsLe a.startSeconds b.startSeconds = true)
      [⟨[], [], some 10, [], []⟩, ⟨[], [], some 20, [], []⟩] ∧
    (∀ e ∈ [(⟨[], [], some 10, [], []⟩ : SRTEntry), ⟨[], [], some 20, [], []⟩],
      e.startSeconds ≠ some (-1)) ∧
    (0 : ℚ) < 1 * 60 ∧
    (∀ c ∈ chunkSRTByDuration [(⟨[], [], some 10, [], []⟩ : SRTEntry),
        ⟨[], [], some 20, [], []⟩] 1, ∀ hc : c ≠ [],
      c.length = 1 ∨ ∃ qf ql : ℚ, c.headI.startSeconds = some qf ∧
        (c.getLast hc).startSeconds = some ql ∧ ql - qf ≤ 1 * 60) :=
  ⟨by norm_num [jsLe], by norm_num, by norm_num,
    C2_chunk_span [⟨[], [], some 10, [], []⟩, ⟨[], [], some 20, [], []⟩] 1
      (by norm_num [jsLe]) (by norm_num) (by norm_num)⟩

/-- Entry with the sentinel-colliding start time `-1`, used in the C2
counterexample. -/
def ceEntryA : SRTEntry := ⟨[], [], some (-1), [], []⟩

/-- Entry with start time `100`, used in the C2 counterexample. -/
def ceEntryB : SRTEntry := ⟨[], [], some 100, [], []⟩

/-- Counterexample to C2 as stated: the input `[{start: -1}, {start: 100}]`
is sorted and the window is `1 * 60 > 0`, yet the single produced chunk
has two entries and span `101 > 60`, because the first entry's start
collides with the `-1` sentinel of `chunkStartTime`. -/
theorem C2_counterexample :
    List.Pairwise (fun a b : SRTEntry => jsLe a.startSeconds b.startSeconds = true)
      [ceEntryA, ceEntryB] ∧
    (0 : ℚ) < 1 * 60 ∧
    ¬ (∀ c ∈ chunkSRTByDuration [ceEntryA, ceEntryB] 1, ∀ hc : c ≠ [],
        c.length = 1 ∨ ∃ qf ql : ℚ, c.headI.startSeconds = some qf ∧
          (c.getLast hc).startSeconds = some ql ∧ ql - qf ≤ 1 * 60) := by
  have hchunks : chunkSRTByDuration [ceEntryA, ceEntryB] 1 = [[ceEntryA, ceEntryB]] := by
    norm_num [chunkSRTByDuration, chunkStep, ceEntryA, ceEntryB, jsEqNum, jsSub, jsGt]
  refine ⟨?_, by norm_num, ?_⟩
  · simp only [List.pairwise_cons, List.mem_singleton]
    refine ⟨?_, by simp⟩
    intro b hb
    rw [hb]
    simp only [ceEntryA, ceEntryB, jsLe, decide_eq_true_eq]
    norm_num
  · intro hclaim
    have h := hclaim [ceEntryA, ceEntryB] (by rw [hchunks]; exact List.mem_singleton.mpr rfl)
      (by simp)
    rcases h with h1 | ⟨qf, ql, hqf, hql, hle⟩
    · simp at h1
    · have hqf2 : qf = -1 := by
        simp only [List.headI, ceEntryA, Option.some_inj] at hqf
        exact hqf.symm
      have hql2 : ql = 100 := by
        have : ([ceEntryA, ceEntryB].getLast (by simp)) = ceEntryB := by
          simp [List.getLast]
        rw [this] at hql
        simp only [ceEntryB, Option.some_inj] at hql
        exact hql.symm
      rw [hqf2, hql2] at hle
      norm_num at hle

/-- Witness for C3 on a concrete sorted two-entry list with window one
minute. -/
theorem C3_chunk_partition_witness :
    (chunkSRTByDuration [⟨[], [], some 0, [], []⟩, ⟨[], [], some 30, [], []⟩] 1).flatten =
      [(⟨[], [], some 0, [], []⟩ : SRTEntry), ⟨[], [], some 30, [], []⟩] ∧
    ∀ c ∈ chunkSRTByDuration [(⟨[], [], some 0, [], []⟩ : SRTEntry), ⟨[], [], some 30, [], []⟩] 1,
      c ≠ [] :=
  C3_chunk_partition [⟨[], [], some 0, [], []⟩, ⟨[], [], some 30, [], []⟩] 1
    (by simp [jsLe]) (by norm_num)

/-- Time interval `{start, end}` as used for silence intervals and sound
segments in `removeSilence` (`src/services/videoProcessor.js`). -/
structure Seg where
  start : ℚ
  «end» : ℚ
deriving DecidableEq

/-- Padding constant of `removeSilence`
(`src/services/videoProcessor.js:84`). -/
def PADDING : ℚ := 0.1

/-- Embedding of the silence-inversion loop of `removeSilence`
(`src/services/videoProcessor.js:146-161`):

```
const sounds = []; let lastEnd = 0;
silences.forEach(s => {
    if (s.start - lastEnd > 0.1) {
        sounds.push({ start: Math.max(0, lastEnd - PADDING),
                      end: Math.min(totalDuration, s.start + PADDING) });
    }
    lastEnd = s.end;
});
if (lastEnd < totalDuration) {
    sounds.push({ start: lastEnd - PADDING, end: totalDuration });
}
```

The merge-gap threshold `0.1` and `PADDING = 0.1` are the source's
constants.  The state of the fold is the pair `(sounds, lastEnd)`. -/
def invertSilences (silences : List Seg) (totalDuration : ℚ) : List Seg :=
  let p := silences.foldl
    (fun (acc : List Seg × ℚ) s =>
      if (0.1 : ℚ) < s.start - acc.2 then
        (acc.1 ++ [⟨max 0 (acc.2 - PADDING), min totalDuration (s.start + PADDING)⟩], s.«end»)
      else (acc.1, s.«end»))
    ([], 0)
  if p.2 < totalDuration then p.1 ++ [⟨p.2 - PADDING, totalDuration⟩] else p.1

/-- Sound segments kept by `removeSilence` as a function of the detected
silences and the total duration (spec operation `computeSoundSegments`).
When no silence was detected, `removeSilence` short-circuits
(`src/services/videoProcessor.js:139-143`) and copies the file whole,
which keeps the single segment `[0, totalDuration]`; otherwise the
silences are inverted by the loop above. -/
def computeSoundSegments (silences : List Seg) (totalDuration : ℚ) : List Seg :=
  if silences.isEmpty then [⟨0, totalDuration⟩]
  else invertSilences silences totalDuration

/-- C4: the sound-segment inversion applied to silences
`[{5,6},{10,12}]` with `totalDuration = 20` (padding and merge-gap
threshold both the source constant `0.1`) yields exactly
`[{0,5.1},{5.9,10.1},{11.9,20}]`, in that order. -/
theorem C4_computeSoundSegments :
    computeSoundSegments [⟨5, 6⟩, ⟨10, 12⟩] 20 =
      [⟨0, 5.1⟩, ⟨5.9, 10.1⟩, ⟨11.9, 20⟩] := by
  norm_num [computeSoundSegments, invertSilences, PADDING]

/-- C5: `computeSoundSegments` with no silence intervals and any positive
total duration returns the single whole-duration segment. -/
theorem C5_computeSoundSegments_empty (totalDuration : ℚ) (h : 0 < totalDuration) :
    computeSoundSegments [] totalDuration = [⟨0, totalDuration⟩] := by
  simp [computeSoundSegments]

/-- Witness for C5 at `totalDuration = 20`. -/
theorem C5_computeSoundSegments_empty_witness :
    (0 : ℚ) < 20 ∧ computeSoundSegments [] 20 = [⟨0, 20⟩] :=
  ⟨by norm_num, C5_computeSoundSegments_empty 20 (by norm_num)⟩

/-- Candidate clip value as proposed by the external model (spec data
model `Candidate` without the key): time range, optional title, optional
score (`score` is read as `0` when absent by `removeOverlaps`). -/
structure Candidate where
  start : ℚ
  «end» : ℚ
  title : Option Str := none
  score : Option ℚ := none
deriving DecidableEq

/-- Reading of `x.score || 0` (`src/services/analysis.js:83-84`): a
missing score is read as `0`; a present score `0` also yields `0`, the
same value. -/
def scoreOrZero : Option ℚ → ℚ
  | some q => q
  | none => 0

/-- Element of the working array built by `removeOverlaps`
(`src/services/analysis.js:75-79`): the map key, the candidate fields,
and the derived `duration = end - start` auxiliary field that is deleted
again before the result is returned. -/
structure Clip where
  key : Str
  val : Candidate
  duration : ℚ
deriving DecidableEq

/-- Sort order of `clips.sort((a, b) => ...)`
(`src/services/analysis.js:82-87`): score descending, ties broken by
duration descending.  `clipLE a b` holds when the comparator returns a
non-positive value on `(a, b)`, that is when `a` may come before `b`. -/
def clipLE (a b : Clip) : Prop :=
  scoreOrZero b.val.score < scoreOrZero a.val.score ∨
  (scoreOrZero a.val.score = scoreOrZero b.val.score ∧ b.duration ≤ a.duration)

instance : DecidableRel clipLE := fun a b => by
  unfold clipLE
  infer_instance

instance : IsTotal Clip clipLE := by
  constructor
  intro a b
  rcases lt_trichotomy (scoreOrZero a.val.score) (scoreOrZero b.val.score) with h | h | h
  · exact Or.inr (Or.inl h)
  · rcases le_total b.duration a.duration with hd | hd
    · exact Or.inl (Or.inr ⟨h, hd⟩)
    · exact Or.inr (Or.inr ⟨h.symm, hd⟩)
  · exact Or.inl (Or.inl h)

instance : IsTrans Clip clipLE := by
  constructor
  intro a b c hab hbc
  rcases hab with h1 | ⟨h1, hd1⟩
  · rcases hbc with h2 | ⟨h2, _⟩
    · exact Or.inl (lt_trans h2 h1)
    · exact Or.inl (h2 ▸ h1)
  · rcases hbc with h2 | ⟨h2, hd2⟩
    · exact Or.inl (h1 ▸ h2)
    · exact Or.inr ⟨h1.trans h2, le_trans hd2 hd1⟩

/-- Overlap test of the greedy pass (`src/services/analysis.js:97`):

```
if (clip.start < selected.end - 0.5 && selected.start < clip.end - 0.5)
```
-/
def overlapB (clip sel : Clip) : Bool :=
  decide (clip.val.start < sel.val.«end» - (0.5 : ℚ)) &&
  decide (sel.val.start < clip.val.«end» - (0.5 : ℚ))

/-- Greedy selection loop of `removeOverlaps`
(`src/services/analysis.js:89-108`): each clip, in sorted order, is
tested against every already selected clip and appended to the selection
when no overlap is found.  The `rejectedClips` array of the source is
used only for the log message and is not tracked. -/
def selectLoop (sel : List Clip) : List Clip → List Clip
  | [] => sel
  | c :: cs =>
    if sel.any (fun s => overlapB c s) then selectLoop sel cs
    else selectLoop (sel ++ [c]) cs

/-- Embedding of `removeOverlaps` (`src/services/analysis.js:73-121`):
`Object.entries` of the candidate map (an association list in insertion
order), the derived `duration` field, the stable sort by the comparator,
the greedy pass, and the conversion back to a map with `key` and
`duration` removed. -/
def removeOverlaps (momentsMap : List (Str × Candidate)) : List (Str × Candidate) :=
  (selectLoop []
      (List.insertionSort clipLE
        (momentsMap.map (fun p => ⟨p.1, p.2, p.2.«end» - p.2.start⟩)))).map
    (fun c => (c.key, c.val))

section SelectLemmas

theorem selectLoop_subset :
    ∀ (l sel : List Clip) (x : Clip), x ∈ selectLoop sel l → x ∈ sel ∨ x ∈ l := by
  intro l
  induction l with
  | nil => intro sel x hx; exact Or.inl hx
  | cons c cs ih =>
    intro sel x hx
    rw [selectLoop] at hx
    by_cases hov : (sel.any (fun s => overlapB c s)) = true
    · rw [if_pos hov] at hx
      rcases ih sel x hx with h | h
      · exact Or.inl h
      · exact Or.inr (List.mem_cons_of_mem c h)
    · rw [if_neg hov] at hx
      rcases ih (sel ++ [c]) x hx with h | h
      · rcases List.mem_append.mp h with h1 | h2
        · exact Or.inl h1
        · exact Or.inr (List.mem_singleton.mp h2 ▸ List.mem_cons_self c cs)
      · exact Or.inr (List.mem_cons_of_mem c h)

theorem selectLoop_keeps :
    ∀ (l sel : List Clip) (x : Clip), x ∈ sel → x ∈ selectLoop sel l := by
  intro l
  induction l with
  | nil => intro sel x hx; exact hx
  | cons c cs ih =>
    intro sel x hx
    rw [selectLoop]
    by_cases hov : (sel.any (fun s => overlapB c s)) = true
    · rw [if_pos hov]
      exact ih sel x hx
    · rw [if_neg hov]
      exact ih (sel ++ [c]) x (List.mem_append_left _ hx)

theorem selectLoop_pairwise :
    ∀ (l sel : List Clip),
      List.Pairwise (fun a b => overlapB b a = false) sel →
      List.Pairwise (fun a b => overlapB b a = false) (selectLoop sel l) := by
  intro l
  induction l with
  | nil => intro sel h; exact h
  | cons c cs ih =>
    intro sel h
    rw [selectLoop]
    by_cases hov : (sel.any (fun s => overlapB c s)) = true
    · rw [if_pos hov]
      exact ih sel h
    · rw [if_neg hov]
      apply ih
      rw [List.pairwise_append]
      refine ⟨h, List.pairwise_singleton _ c, ?_⟩
      intro s hs x hx
      rw [List.mem_singleton.mp hx]
      have hall := List.any_eq_false.mp (eq_false_of_ne_true hov)
      exact eq_false_of_ne_true (hall s hs)

theorem selectLoop_sublist :
    ∀ (l sel : List Clip), ∃ l', l'.Sublist l ∧ selectLoop sel l = sel ++ l' := by
  intro l
  induction l with
  | nil => intro sel; exact ⟨[], List.Sublist.refl [], by simp [selectLoop]⟩
  | cons c cs ih =>
    intro sel
    rw [selectLoop]
    by_cases hov : (sel.any (fun s => overlapB c s)) = true
    · rw [if_pos hov]
      obtain ⟨l', hsub, heq⟩ := ih sel
      exact ⟨l', hsub.cons c, heq⟩
    · rw [if_neg hov]
      obtain ⟨l', hsub, heq⟩ := ih (sel ++ [c])
      refine ⟨c :: l', hsub.cons₂ c, ?_⟩
      rw [heq, List.append_assoc]
      simp

theorem selectLoop_of_pairwise :
    ∀ (l sel : List Clip),
      List.Pairwise (fun a b => overlapB b a = false) (sel ++ l) →
      selectLoop sel l = sel ++ l := by
  intro l
  induction l with
  | nil => intro sel _; simp [selectLoop]
  | cons c cs ih =>
    intro sel h
    rw [selectLoop]
    have hov : (sel.any (fun s => overlapB c s)) = false := by
      rw [List.any_eq_false]
      intro s hs
      have := (List.pairwise_append.mp h).2.2 s hs c (List.mem_cons_self c cs)
      rw [this]
      exact Bool.false_ne_true
    rw [if_neg (by rw [hov]; exact Bool.false_ne_true)]
    have h2 : List.Pairwise (fun a b => overlapB b a = false) ((sel ++ [c]) ++ cs) := by
      rw [List.append_assoc]
      simpa using h
    rw [ih (sel ++ [c]) h2, List.append_assoc]
    simp

end SelectLemmas

/-- C1: the map returned by `removeOverlaps` is a subset of the input
candidates (every output key/value pair occurs in the input, the derived
`duration` field not being part of the value), and is pairwise
non-overlapping under the tolerance-0.5 predicate. -/
theorem C1_removeOverlaps_subset_nonoverlap (m : List (Str × Candidate)) :
    (∀ p ∈ removeOverlaps m, p ∈ m) ∧
    List.Pairwise
      (fun A B : Str × Candidate =>
        ¬ (A.2.start < B.2.«end» - (0.5 : ℚ) ∧ B.2.start < A.2.«end» - (0.5 : ℚ)))
      (removeOverlaps m) := by
  constructor
  · intro p hp
    rw [removeOverlaps] at hp
    obtain ⟨c, hcmem, hcp⟩ := List.mem_map.mp hp
    have hc1 := selectLoop_subset _ [] c hcmem
    rcases hc1 with h | h
    · cases h
    · have hc2 : c ∈ m.map (fun p => (⟨p.1, p.2, p.2.«end» - p.2.start⟩ : Clip)) :=
        (List.perm_insertionSort clipLE _).mem_iff.mp h
      obtain ⟨pp, hppm, hppc⟩ := List.mem_map.mp hc2
      rw [← hcp, ← hppc]
      simpa using hppm
  · rw [removeOverlaps]
    refine List.Pairwise.map _ ?_ (selectLoop_pairwise _ [] List.Pairwise.nil)
    intro a b hab hcon
    have htrue : overlapB b a = true := by
      simp only [overlapB, Bool.and_eq_true, decide_eq_true_eq]
      exact ⟨hcon.2, hcon.1⟩
    rw [hab] at htrue
    exact Bool.false_ne_true htrue

/-- Witness for C1 at a concrete two-candidate map in which the lower
scored candidate overlaps the higher scored one. -/
theorem C1_removeOverlaps_subset_nonoverlap_witness :
    (∀ p ∈ removeOverlaps [(['a'], ⟨0, 50, none, some 90⟩),
        (['b'], ⟨40, 90, none, some 80⟩)], p ∈
      [((['a'] : Str), (⟨0, 50, none, some 90⟩ : Candidate)), (['b'], ⟨40, 90, none, some 80⟩)]) ∧
    List.Pairwise
      (fun A B : Str × Candidate =>
        ¬ (A.2.start < B.2.«end» - (0.5 : ℚ) ∧ B.2.start < A.2.«end» - (0.5 : ℚ)))
      (removeOverlaps [(['a'], ⟨0, 50, none, some 90⟩), (['b'], ⟨40, 90, none, some 80⟩)]) :=
  C1_removeOverlaps_subset_nonoverlap [(['a'], ⟨0, 50, none, some 90⟩),
    (['b'], ⟨40, 90, none, some 80⟩)]

/-- C10: for every non-empty candidate map, `removeOverlaps` returns a
non-empty map containing a candidate of maximal score (missing scores
read as 0), because the greedy pass always accepts the first candidate
of the sorted order. -/
theorem C10_removeOverlaps_keeps_max (m : List (Str × Candidate)) (hne : m ≠ []) :
    removeOverlaps m ≠ [] ∧
    ∃ p ∈ removeOverlaps m, ∀ q ∈ m, scoreOrZero q.2.score ≤ scoreOrZero p.2.score := by
  have hclips : m.map (fun p => (⟨p.1, p.2, p.2.«end» - p.2.start⟩ : Clip)) ≠ [] := by
    simpa using hne
  have hsortne : List.insertionSort clipLE
      (m.map (fun p => (⟨p.1, p.2, p.2.«end» - p.2.start⟩ : Clip))) ≠ [] := by
    intro h0
    apply hclips
    have hperm := List.perm_insertionSort clipLE
      (m.map (fun p => (⟨p.1, p.2, p.2.«end» - p.2.start⟩ : Clip)))
    rw [h0] at hperm
    exact (hperm.symm).eq_nil
  obtain ⟨c0, rest, hL⟩ := List.exists_cons_of_ne_nil hsortne
  have hstep : selectLoop [] (c0 :: rest) = selectLoop [c0] rest := by
    rw [selectLoop]
    simp
  have hc0sel : c0 ∈ selectLoop []
      (List.insertionSort clipLE (m.map (fun p => (⟨p.1, p.2, p.2.«end» - p.2.start⟩ : Clip)))) := by
    rw [hL, hstep]
    exact selectLoop_keeps rest [c0] c0 (List.mem_singleton.mpr rfl)
  have hpmem : (c0.key, c0.val) ∈ removeOverlaps m := by
    rw [removeOverlaps]
    exact List.mem_map_of_mem _ hc0sel
  have hsorted := List.sorted_insertionSort clipLE
    (m.map (fun p => (⟨p.1, p.2, p.2.«end» - p.2.start⟩ : Clip)))
  rw [hL] at hsorted
  refine ⟨List.ne_nil_of_mem hpmem, (c0.key, c0.val), hpmem, ?_⟩
  intro q hq
  have hqclip : (⟨q.1, q.2, q.2.«end» - q.2.start⟩ : Clip) ∈
      List.insertionSort clipLE (m.map (fun p => (⟨p.1, p.2, p.2.«end» - p.2.start⟩ : Clip))) := by
    rw [List.mem_insertionSort]
    exact List.mem_map_of_mem _ hq
  rw [hL] at hqclip
  rcases List.mem_cons.mp hqclip with h | h
  · have : q.2 = c0.val := congrArg Clip.val h
    rw [← this]
  · have hrel := List.rel_of_sorted_cons hsorted _ h
    rcases hrel with h1 | ⟨h1, _⟩
    · exact le_of_lt h1
    · exact le_of_eq h1.symm

/-- Witness for C10 at a concrete one-candidate map. -/
theorem C10_removeOverlaps_keeps_max_witness :
    ([((['a'] : Str), (⟨0, 50, none, some 90⟩ : Candidate))] ≠ []) ∧
    (removeOverlaps [(['a'], ⟨0, 50, none, some 90⟩)] ≠ [] ∧
      ∃ p ∈ removeOverlaps [(['a'], ⟨0, 50, none, some 90⟩)],
        ∀ q ∈ [((['a'] : Str), (⟨0, 50, none, some 90⟩ : Candidate))],
          scoreOrZero q.2.score ≤ scoreOrZero p.2.score) :=
  ⟨by simp, C10_removeOverlaps_keeps_max [(['a'], ⟨0, 50, none, some 90⟩)] (by simp)⟩

/-- C7: `removeOverlaps` is idempotent; applying it to its own output
returns that output unchanged (even as an ordered association list). -/
theorem C7_removeOverlaps_idempotent (m : List (Str × Candidate)) :
    removeOverlaps (removeOverlaps m) = removeOverlaps m := by
  have h0 : removeOverlaps m =
      (selectLoop [] (List.insertionSort clipLE
        (m.map (fun p => (⟨p.1, p.2, p.2.«end» - p.2.start⟩ : Clip))))).map
        (fun c => (c.key, c.val)) := rfl
  have hsel_sub : ∀ x ∈ selectLoop [] (List.insertionSort clipLE
      (m.map (fun p => (⟨p.1, p.2, p.2.«end» - p.2.start⟩ : Clip)))),
      x ∈ m.map (fun p => (⟨p.1, p.2, p.2.«end» - p.2.start⟩ : Clip)) := by
    intro x hx
    rcases selectLoop_subset _ [] x hx with h | h
    · cases h
    · exact (List.perm_insertionSort clipLE _).mem_iff.mp h
  have hclips2 : (removeOverlaps m).map
      (fun p => (⟨p.1, p.2, p.2.«end» - p.2.start⟩ : Clip)) =
      selectLoop [] (List.insertionSort clipLE
        (m.map (fun p => (⟨p.1, p.2, p.2.«end» - p.2.start⟩ : Clip)))) := by
    rw [h0, List.map_map]
    have hid : ∀ x ∈ selectLoop [] (List.insertionSort clipLE
        (m.map (fun p => (⟨p.1, p.2, p.2.«end» - p.2.start⟩ : Clip)))),
        ((fun p : Str × Candidate => (⟨p.1, p.2, p.2.«end» - p.2.start⟩ : Clip)) ∘
          (fun c : Clip => (c.key, c.val))) x = id x := by
      intro x hx
      obtain ⟨pp, _, hppx⟩ := List.mem_map.mp (hsel_sub x hx)
      show (⟨x.key, x.val, x.val.«end» - x.val.start⟩ : Clip) = x
      rw [← hppx]
    rw [List.map_congr_left hid, List.map_id]
  have hsorted_sel : List.Pairwise clipLE (selectLoop []
      (List.insertionSort clipLE
        (m.map (fun p => (⟨p.1, p.2, p.2.«end» - p.2.start⟩ : Clip))))) := by
    obtain ⟨l', hsub, heq⟩ := selectLoop_sublist (List.insertionSort clipLE
      (m.map (fun p => (⟨p.1, p.2, p.2.«end» - p.2.start⟩ : Clip)))) []
    rw [List.nil_append] at heq
    rw [heq]
    exact (List.sorted_insertionSort clipLE _).sublist hsub
  have hpw : List.Pairwise (fun a b => overlapB b a = false)
      (selectLoop [] (List.insertionSort clipLE
        (m.map (fun p => (⟨p.1, p.2, p.2.«end» - p.2.start⟩ : Clip))))) :=
    selectLoop_pairwise _ [] List.Pairwise.nil
  calc removeOverlaps (removeOverlaps m)
      = (selectLoop [] (List.insertionSort clipLE
          (selectLoop [] (List.insertionSort clipLE
            (m.map (fun p => (⟨p.1, p.2, p.2.«end» - p.2.start⟩ : Clip))))))).map
          (fun c => (c.key, c.val)) := by
        rw [removeOverlaps, hclips2]
    _ = (selectLoop [] (selectLoop [] (List.insertionSort clipLE
          (m.map (fun p => (⟨p.1, p.2, p.2.«end» - p.2.start⟩ : Clip)))))).map
          (fun c => (c.key, c.val)) := by
        rw [List.Sorted.insertionSort_eq hsorted_sel]
    _ = (selectLoop [] (List.insertionSort clipLE
          (m.map (fun p => (⟨p.1, p.2, p.2.«end» - p.2.start⟩ : Clip))))).map
          (fun c => (c.key, c.val)) := by
        rw [selectLoop_of_pairwise _ [] (by simpa using hpw), List.nil_append]
    _ = removeOverlaps m := h0.symm

/-- Witness for C7 at a concrete two-candidate map with a genuine
overlap. -/
theorem C7_removeOverlaps_idempotent_witness :
    removeOverlaps (removeOverlaps [(['a'], ⟨0, 50, none, some 90⟩),
        (['b'], ⟨40, 90, none, some 80⟩)]) =
      removeOverlaps [((['a'] : Str), (⟨0, 50, none, some 90⟩ : Candidate)),
        (['b'], ⟨40, 90, none, some 80⟩)] :=
  C7_removeOverlaps_idempotent [(['a'], ⟨0, 50, none, some 90⟩), (['b'], ⟨40, 90, none, some 80⟩)]

end Cortes
